import Mathlib

/-
Verification of the collection-hierarchy core of zotero-upload-url
(src/zotero_upload_url/collection.py): the tree builder
(`_build_collection_tree`), the tree renderer (`print_tree`), the flattener
(`build_flat_list`), the two selection front-ends (`fuzzy_select`,
`numbered_select`, `interactive_select`) and the native listing assembly
(`list_collections_native`).

Python strings are modelled as Lean `String` values; the Python string
operations used by the code (`str.lower`, `str.strip`, `str.split(":")[0]`,
`int(...)`) are embedded as character-list functions below, covering the
ASCII range (the code compares collection names and parses numeric stdin
tokens, which are ASCII in every behaviour specified).  Python `dict`s keyed
by strings are modelled as insertion-ordered association lists with
overwrite-on-duplicate, matching CPython semantics.  Network calls and the
fzf subprocess are modelled as explicit parameters carrying their outcome.
-/

namespace ZoteroUpload

/-- Lowercase one character; models Python `str.lower` on the ASCII range. -/
def lowerChar (c : Char) : Char :=
  if 65 ≤ c.toNat ∧ c.toNat ≤ 90 then Char.ofNat (c.toNat + 32) else c

/-- Models Python `str.lower` (ASCII range). -/
def pyLower (s : String) : String := ⟨s.data.map lowerChar⟩

/-- ASCII whitespace recognised by Python `str.strip`. -/
def isPyWs (c : Char) : Bool :=
  c.toNat == 32 || c.toNat == 9 || c.toNat == 10 || c.toNat == 13 ||
  c.toNat == 11 || c.toNat == 12

/-- Models Python `str.strip()` (ASCII whitespace). -/
def pyStrip (s : String) : String :=
  ⟨((s.data.dropWhile isPyWs).reverse.dropWhile isPyWs).reverse⟩

/-- Models Python `s.split(":")[0]`: the prefix of `s` before the first colon
(the whole string when no colon occurs). -/
def firstToken (s : String) : String :=
  ⟨s.data.takeWhile (fun c => c.toNat != 58)⟩

/-- Decimal digit value of an ASCII character, if any. -/
def digitVal? (c : Char) : Option Nat :=
  if 48 ≤ c.toNat ∧ c.toNat ≤ 57 then some (c.toNat - 48) else none

/-- Digit tail of a Python integer literal: digits possibly separated by
single underscores, each underscore flanked by digits. -/
def pyIntDigits : List Char → Nat → Option Nat
  | [], acc => some acc
  | c :: cs, acc =>
    if c = '_' then
      match cs with
      | [] => none
      | c2 :: cs2 =>
        match digitVal? c2 with
        | some d => pyIntDigits cs2 (acc * 10 + d)
        | none => none
    else
      match digitVal? c with
      | some d => pyIntDigits cs (acc * 10 + d)
      | none => none

/-- Nonempty run of digits (with optional interior underscores). -/
def pyIntUnsigned : List Char → Option Nat
  | [] => none
  | c :: cs =>
    match digitVal? c with
    | some d => pyIntDigits cs d
    | none => none

/-- Models Python `int(s)`: strip whitespace, optional sign, decimal digits
with optional interior underscores; `none` models the `ValueError` raised on
any other shape. -/
def py_int (s : String) : Option Int :=
  match (pyStrip s).data with
  | [] => none
  | c :: cs =>
    if c = '+' then (pyIntUnsigned cs).map (fun n => (n : Int))
    else if c = '-' then (pyIntUnsigned cs).map (fun n => -(n : Int))
    else (pyIntUnsigned (c :: cs)).map (fun n => (n : Int))

/-! ## Input records and the tree builder -/

/-- One element of the flat JSON array returned by the native listing API:
`{"key": ..., "data": {"name": ..., "parentCollection": ...}}`.  A `none`
field models an absent JSON key; in `parentCollection`, `none` also models
the JSON value `false` that Zotero uses for root collections (both are falsy
and erased by the builder's `or None`). -/
structure RawCollection where
  key : Option String
  name : Option String
  parentCollection : Option String
deriving DecidableEq, Repr

/-- The per-key node dictionary value built by `_build_collection_tree`'s
first loop (children are represented separately, see `childEntries`). -/
structure NodeEntry where
  key : String
  name : String
  parentKey : Option String
deriving DecidableEq, Repr

/-- Models `c.get("key", "")`. -/
def recKey (c : RawCollection) : String := c.key.getD ""

/-- Models `data.get("name", "Unknown")` — the default applies only when the field
is absent, not when it is the empty string. -/
def recName (c : RawCollection) : String := c.name.getD "Unknown"

/-- Models `data.get("parentCollection") or None`: falsy values (absent, `false`,
empty string) become `none`. -/
def recParentKey (c : RawCollection) : Option String :=
  match c.parentCollection with
  | some p => if p = "" then none else some p
  | none => none

/-- The node constructed for one record in the builder's first loop. -/
def mkNodeEntry (c : RawCollection) : NodeEntry :=
  ⟨recKey c, recName c, recParentKey c⟩

/-- CPython dict assignment `m[k] = v`: overwrite in place when the key
exists (keeping its insertion position), append otherwise. -/
def dictInsert (m : List (String × NodeEntry)) (k : String) (v : NodeEntry) :
    List (String × NodeEntry) :=
  if m.any (fun p => p.1 == k) then
    m.map (fun p => if p.1 == k then (k, v) else p)
  else m ++ [(k, v)]

/-- The builder's `by_key` dictionary after the first loop. -/
def mkByKey (recs : List RawCollection) : List (String × NodeEntry) :=
  recs.foldl (fun m c => dictInsert m (recKey c) (mkNodeEntry c)) []

/-- The node values of `by_key`, in dictionary (insertion) order. -/
def entriesOf (recs : List RawCollection) : List NodeEntry :=
  (mkByKey recs).map Prod.snd

/-- The builder's second-loop test `if parent_key and parent_key in by_key`:
the node is attached to a parent rather than promoted to a root. -/
def resolves (entries : List NodeEntry) (e : NodeEntry) : Bool :=
  match e.parentKey with
  | none => false
  | some p => (p != "") && entries.any (fun x => x.key == p)

/-- The children list accumulated under key `k` by the second loop, in
dictionary order (subsequently sorted). -/
def childEntries (entries : List NodeEntry) (k : String) : List NodeEntry :=
  entries.filter (fun e => resolves entries e && e.parentKey == some k)

/-- The `roots` list accumulated by the second loop, before sorting. -/
def rootsPre (entries : List NodeEntry) : List NodeEntry :=
  entries.filter (fun e => !resolves entries e)

/-- The sibling sort key: `x["name"].lower()` as a character list. -/
def lowName (e : NodeEntry) : List Char := e.name.data.map lowerChar

/-- Lexicographic comparison of character lists by code point; this is
Python's `<` on the strings involved. -/
def chLt : List Char → List Char → Bool
  | [], [] => false
  | [], _ :: _ => true
  | _ :: _, [] => false
  | a :: as, b :: bs =>
    if a.toNat < b.toNat then true
    else if b.toNat < a.toNat then false
    else chLt as bs

/-- Strict comparison of node entries by lowercased name. -/
def entLt (a b : NodeEntry) : Bool := chLt (lowName a) (lowName b)

/-- Stable insertion: `e` goes before the first element not strictly below
it, so elements with equal keys keep their relative order. -/
def insEnt (e : NodeEntry) : List NodeEntry → List NodeEntry
  | [] => [e]
  | x :: xs => if entLt x e then x :: insEnt e xs else e :: x :: xs

/-- Models `nodes.sort(key=lambda x: x["name"].lower())`: Python's sort is
stable, and a stable sort under a fixed total preorder has a unique output,
so this stable insertion sort computes the same list. -/
def sortEntries : List NodeEntry → List NodeEntry
  | [] => []
  | x :: xs => insEnt x (sortEntries xs)

/-- A node of the built tree: the observable shape of the nested dicts the
builder returns (`key`, `name`, `children`). -/
inductive CNode where
  | mk (key : String) (name : String) (children : List CNode)
deriving Repr

def CNode.key : CNode → String
  | .mk k _ _ => k

def CNode.name : CNode → String
  | .mk _ n _ => n

def CNode.children : CNode → List CNode
  | .mk _ _ ch => ch

/-- Unfolding of the shared mutable dict structure into a tree, with fuel.
Each node's children are the entries whose parent pointer resolves to it,
sorted; `sort_children` recursively sorts exactly the lists reachable from
the roots, which is what this reproduces. -/
def buildNode (entries : List NodeEntry) : Nat → NodeEntry → CNode
  | 0, e => .mk e.key e.name []
  | fuel + 1, e =>
    .mk e.key e.name ((sortEntries (childEntries entries e.key)).map (buildNode entries fuel))

/-- The builder `_build_collection_tree`: flat record list to sorted forest.  Fuel
`entries.length` is exact: any chain of root-reachable nodes consists of
entries with pairwise distinct dictionary keys, so its length is bounded by
the number of entries, and nodes caught in a parent cycle are never
reachable from a root (their whole ancestor chain resolves inside the
cycle), exactly as in the Python structure. -/
def _build_collection_tree (collections : List RawCollection) : List CNode :=
  let entries := entriesOf collections
  (sortEntries (rootsPre entries)).map (buildNode entries entries.length)

/-! ## Renderer, flattener and selectors -/

/-- One line printed by the numbered display: the indentation-and-branch
text, the bracketed index, and the entry text.  `render` recovers the exact
string passed to `print`. -/
structure TreeLine where
  pfx : String
  idx : Nat
  text : String
deriving DecidableEq, Repr

def TreeLine.render (l : TreeLine) : String :=
  l.pfx ++ "[" ++ toString l.idx ++ "] " ++ l.text

/-- Number of nodes in a forest. -/
def countNodes : List CNode → Nat
  | [] => 0
  | .mk _ _ ch :: rest => 1 + countNodes ch + countNodes rest

/-- Depth-first pre-order listing of a forest. -/
def preorderNodes : List CNode → List CNode
  | [] => []
  | .mk k n ch :: rest => .mk k n ch :: (preorderNodes ch ++ preorderNodes rest)

/-- The renderer `print_tree(collections, prefix, start_idx)`: returns the printed lines
(modelling the `print` calls), the flat pre-order item list, and the next
unused index, exactly as the Python function returns `(items, idx)`. -/
def print_tree : List CNode → String → Nat → List TreeLine × List CNode × Nat
  | [], _, idx => ([], [], idx)
  | .mk k n ch :: rest, pfx, idx =>
    let is_last := rest.isEmpty
    let branch := if is_last then "└── " else "├── "
    let childPfx := if is_last then "    " else "│   "
    let sub :=
      if ch.isEmpty then (([] : List TreeLine), ([] : List CNode), idx + 1)
      else print_tree ch (pfx ++ childPfx) (idx + 1)
    let rem := print_tree rest pfx sub.2.2
    (⟨pfx ++ branch, idx, n⟩ :: (sub.1 ++ rem.1),
     .mk k n ch :: (sub.2.1 ++ rem.2.1), rem.2.2)

/-- One library as assembled by `list_collections_native`: `id` is the JSON
value `group.get("id")` (`some` an integer, or `none` when absent; the
personal library always carries `some 1`). -/
structure Library where
  id : Option Int
  name : String
  type : String
  collections : List CNode
deriving Repr

/-- One selectable item of the flattened list. -/
structure SelItem where
  type : String
  id : Option Int
  name : String
  key : Option String
  display : String
deriving DecidableEq, Repr

/-- Models `"  " * depth`. -/
def indentOf : Nat → String
  | 0 => ""
  | d + 1 => "  " ++ indentOf d

/-- The inner `add_collections` of `build_flat_list`: one `collection` item
per node, pre-order, indentation two spaces per depth level. -/
def add_collections (lib_id : Option Int) (lib_name : String) :
    List CNode → Nat → List SelItem
  | [], _ => []
  | .mk k n ch :: rest, depth =>
    ⟨"collection", lib_id, n, some k, lib_name ++ " > " ++ indentOf depth ++ n⟩ ::
    ((if ch.isEmpty then [] else add_collections lib_id lib_name ch (depth + 1)) ++
      add_collections lib_id lib_name rest depth)

/-- The flattener `build_flat_list`: per library, one `library` root item then the
collection items. -/
def build_flat_list (libraries : List Library) : List SelItem :=
  libraries.flatMap (fun lib =>
    ⟨"library", lib.id, lib.name, none, lib.name ++ " (root)"⟩ ::
    (if lib.collections.isEmpty then []
     else add_collections lib.id lib.name lib.collections 0))

/-- The display loop of `numbered_select`: per library, one library-root
line, then `print_tree` with prefix four spaces, indices threaded through.
(The bare separating `print()` emits no indexed entry and is not modelled.)
Returns the lines and the next unused index. -/
def numbered_display : List Library → Nat → List TreeLine × Nat
  | [], idx => ([], idx)
  | lib :: rest, idx =>
    let pt :=
      if lib.collections.isEmpty then (([] : List TreeLine), ([] : List CNode), idx + 1)
      else print_tree lib.collections "    " (idx + 1)
    let rem := numbered_display rest pt.2.2
    (⟨"", idx, lib.name ++ " (Library root)"⟩ :: (pt.1 ++ rem.1), rem.2)

/-- The fallback `numbered_select(items, libraries)` with the single `input()` line made
explicit: `none` models `EOFError`.  Returns the printed display and the
selection; every failure path (quit, parse error, out of range, end of
input) yields no selection rather than an exception. -/
def numbered_select (items : List SelItem) (libraries : List Library)
    (inp : Option String) : List TreeLine × Option SelItem :=
  let disp := (numbered_display libraries 1).1
  match inp with
  | none => (disp, none)
  | some s =>
    let choice := pyStrip s
    if pyLower choice = "q" then (disp, none)
    else
      match py_int choice with
      | none => (disp, none)
      | some n =>
        let idx : Int := n - 1
        if idx < 0 ∨ idx ≥ (items.length : Int) then (disp, none)
        else (disp, items[idx.toNat]?)

/-- Outcome of the fzf invocation attempt in `fuzzy_select`: the binary is
absent from PATH (`shutil.which` returns `None`), the `subprocess.run` call
raises (caught by the bare `except`), or it ran and produced an exit status
and stdout. -/
inductive FzfOutcome where
  | absent
  | crash
  | ran (returncode : Int) (stdout : String)
deriving DecidableEq, Repr

/-- Python `items[z]` for a possibly negative index; `none` models the
`IndexError` (caught by `fuzzy_select`'s bare `except`). -/
def pyGetItem (items : List SelItem) (z : Int) : Option SelItem :=
  let j : Int := if z < 0 then z + (items.length : Int) else z
  if 0 ≤ j ∧ j < (items.length : Int) then items[j.toNat]? else none

/-- The fzf front-end `fuzzy_select(items)`: on exit status 0 with nonempty stdout, parse the
leading colon-delimited token as the index; every failure gives `none`. -/
def fuzzy_select (items : List SelItem) (o : FzfOutcome) : Option SelItem :=
  match o with
  | .absent => none
  | .crash => none
  | .ran rc out =>
    if rc = 0 ∧ pyStrip out ≠ "" then
      match py_int (firstToken (pyStrip out)) with
      | none => none
      | some z => pyGetItem items z
    else none

/-- Body of a plugin API response, as used by `interactive_select`. -/
structure PluginResp where
  success : Bool
  error : Option String
deriving DecidableEq, Repr

/-- Observable outcome of `interactive_select`: whether the fzf-fallback
notice line was printed, whether the numbered fallback ran, what was
selected, and the boolean the function returns. -/
structure InteractiveOutcome where
  noticePrinted : Bool
  usedNumbered : Bool
  selected : Option SelItem
  ok : Bool

/-- The driver `interactive_select` with its collaborators made explicit: `data` is the
`list_collections` result, `ofzf` the fzf outcome, `inp` the numbered
prompt's input line, `plugin` the `select_collection` POST keyed by the
chosen library id and collection key (`none` models connection/HTTP
failure). -/
def interactive_select (data : Option (List Library)) (use_fzf : Bool)
    (ofzf : FzfOutcome) (inp : Option String)
    (plugin : Option Int → Option String → Option PluginResp) : InteractiveOutcome :=
  match data with
  | none => ⟨false, false, none, false⟩
  | some libraries =>
    if libraries.isEmpty then ⟨false, false, none, false⟩
    else
      let all_items := build_flat_list libraries
      let fzfSel := if use_fzf then fuzzy_select all_items ofzf else none
      let step :=
        match fzfSel with
        | some s => (false, false, some s)
        | none =>
          if !use_fzf then (false, true, (numbered_select all_items libraries inp).2)
          else (true, true, (numbered_select all_items libraries inp).2)
      match step.2.2 with
      | none => ⟨step.1, step.2.1, none, false⟩
      | some it =>
        match plugin it.id it.key with
        | some r => ⟨step.1, step.2.1, some it, r.success⟩
        | none => ⟨step.1, step.2.1, some it, false⟩

/-! ## Native listing assembly -/

/-- One element of the `/users/0/groups` response. -/
structure GroupRec where
  id : Option Int
  dataName : Option String
  name : Option String
deriving DecidableEq, Repr

/-- Result of one HTTP fetch: `ok` with the decoded JSON body, or `err` for
a raised `requests` exception. -/
inductive FetchResult (α : Type) where
  | ok (a : α)
  | err
deriving DecidableEq, Repr

/-- Models `group.get("data", {}).get("name") or group.get("name", f"Group {gid}")`. -/
def groupName (g : GroupRec) : String :=
  let fallback :=
    match g.name with
    | some s => s
    | none => "Group " ++ (match g.id with | some n => toString n | none => "None")
  match g.dataName with
  | some s => if s = "" then fallback else s
  | none => fallback

/-- The listing `list_collections_native` over explicit fetch outcomes: a failing
personal-collections or group-list fetch aborts the listing (`none`); a
failing per-group collections fetch (the inner `except
requests.exceptions.RequestException`) degrades that one group to an empty
collection list. -/
def list_collections_native
    (personal : FetchResult (List RawCollection))
    (groups : FetchResult (List GroupRec))
    (groupColls : Option Int → FetchResult (List RawCollection)) :
    Option (List Library) :=
  match personal with
  | .err => none
  | .ok pcs =>
    match groups with
    | .err => none
    | .ok gs =>
      some (⟨some 1, "My Library", "user", _build_collection_tree pcs⟩ ::
        gs.map (fun g =>
          let gcs := match groupColls g.id with | .ok cs => cs | .err => []
          ⟨g.id, groupName g, "group", _build_collection_tree gcs⟩))

/-! ## Derived notions used by the theorems -/

/-- Non-strict order on entries induced by the sort comparison. -/
def entLe (a b : NodeEntry) : Prop := chLt (lowName b) (lowName a) = false

/-- A displayed line announces a flattened item: a library line carries the
library's name with the `(Library root)` suffix, a tree line carries the
node's name. -/
def lineMatches (l : TreeLine) (it : SelItem) : Prop :=
  (it.type = "library" ∧ l.text = it.name ++ " (Library root)") ∨
  (it.type = "collection" ∧ l.text = it.name)

/-- Number of flattened items contributed by a library list: one root item
plus one item per collection node, per library. -/
def flatCount : List Library → Nat
  | [] => 0
  | lib :: rest => 1 + countNodes lib.collections + flatCount rest

/-- Acyclicity of the parent pointers of a dictionary-entry list, stated as
the existence of a topological rank: parents rank strictly below children,
and ranks stay below the number of entries.  A record set whose resolvable
parent edges contain no cycle admits such a rank (breadth-first distance
from the roots), and conversely. -/
def RankedAcyclic (entries : List NodeEntry) : Prop :=
  ∃ rank : String → Nat,
    (∀ e ∈ entries, rank e.key < entries.length) ∧
    (∀ e ∈ entries, ∀ p ∈ entries, resolves entries e = true →
      e.parentKey = some p.key → rank p.key < rank e.key)

/-- Pre-order listing of the key and name of every node of a forest. -/
def forestFlat : List CNode → List (String × String)
  | [] => []
  | .mk k n ch :: rest => (k, n) :: (forestFlat ch ++ forestFlat rest)

/-- Pre-order listing of the entries reachable from one entry through the
children relation, with fuel (unsorted companion of `buildNode`). -/
def subtreeU (entries : List NodeEntry) : Nat → NodeEntry → List NodeEntry
  | 0, e => [e]
  | fuel + 1, e => e :: (childEntries entries e.key).flatMap (subtreeU entries fuel)

/-- One library's contiguous segment of the flattened selectable list. -/
def librarySegment (lib : Library) : List SelItem :=
  ⟨"library", lib.id, lib.name, none, lib.name ++ " (root)"⟩ ::
  (if lib.collections.isEmpty then []
   else add_collections lib.id lib.name lib.collections 0)

/-- The failure conditions of the fzf path: binary absent, subprocess
raised, non-zero exit status, empty stdout, or unparseable leading token. -/
def FzfFailed : FzfOutcome → Prop
  | .absent => True
  | .crash => True
  | .ran rc out => rc ≠ 0 ∨ pyStrip out = "" ∨ py_int (firstToken (pyStrip out)) = none

/-- Concrete five-item flattened list used in witnesses. -/
def demoItems : List SelItem :=
  [⟨"library", some 1, "L1", none, "L1 (root)"⟩,
   ⟨"collection", some 1, "a", some "A", "L1 > a"⟩,
   ⟨"collection", some 1, "b", some "B", "L1 > b"⟩,
   ⟨"collection", some 1, "c", some "C", "L1 > c"⟩,
   ⟨"collection", some 1, "d", some "D", "L1 > d"⟩]

/-- Two records forming a parent cycle: each one's parent resolves to the
other, so neither is promoted to a root. -/
def cycRecs : List RawCollection :=
  [⟨some "A", some "a", some "B"⟩, ⟨some "B", some "b", some "A"⟩]

/-- Two root records with the same name. -/
def sameNameRecs : List RawCollection :=
  [⟨some "A", some "x", none⟩, ⟨some "B", some "x", none⟩]

/-- The same two records in the opposite order. -/
def sameNameRecsRev : List RawCollection :=
  [⟨some "B", some "x", none⟩, ⟨some "A", some "x", none⟩]

/-- An orphan record whose key is reused by a later record, so the
dictionary overwrites its node. -/
def dupKeyRecs : List RawCollection :=
  [⟨some "A", some "n1", some "Z"⟩, ⟨some "A", some "n2", none⟩]

/-- One record with a present but empty name. -/
def emptyNameRecs : List RawCollection := [⟨some "K", some "", none⟩]

/-- A record with no name field, plus a sibling with a name. -/
def missingNameRecs : List RawCollection :=
  [⟨some "K", none, none⟩, ⟨some "L", some "x", none⟩]

/-- An orphan record (unresolvable parent key) among distinct keys. -/
def orphanRecs : List RawCollection :=
  [⟨some "A", some "a", some "Missing"⟩, ⟨some "B", some "b", none⟩]

/-- A permutation of `demoRecs`. -/
def demoRecsPerm : List RawCollection :=
  [⟨some "C", some "Sub", some "B"⟩, ⟨some "A", some "Zeta", none⟩,
   ⟨some "B", some "Alpha", none⟩]

/-- Key-name pair of a dictionary entry. -/
def entPair (e : NodeEntry) : String × String := (e.key, e.name)

/-- Concrete forest used in the sanity examples and witnesses. -/
def demoForest : List CNode :=
  [.mk "A" "a" [.mk "B" "b" [], .mk "C" "c" [.mk "D" "d" []]], .mk "E" "e" []]

def demoLib : Library := ⟨some 1, "My Library", "user", demoForest⟩

/-- Concrete record list used in witnesses: two roots and one child. -/
def demoRecs : List RawCollection :=
  [⟨some "A", some "Zeta", none⟩, ⟨some "B", some "Alpha", none⟩,
   ⟨some "C", some "Sub", some "B"⟩]

-- Sanity examples (spec section 8 worked example, and edge behaviour).
example :
    _build_collection_tree
      [⟨some "A", some "Zeta", none⟩, ⟨some "B", some "Alpha", none⟩,
       ⟨some "C", some "Sub", some "B"⟩] =
    [.mk "B" "Alpha" [.mk "C" "Sub" []], .mk "A" "Zeta" []] := by rfl

example :
    _build_collection_tree
      [⟨some "A", some "a", some "B"⟩, ⟨some "B", some "b", some "A"⟩] = [] := by rfl

example : py_int "  3 " = some 3 := by rfl
example : py_int "-12" = some (-12) := by rfl
example : py_int "1_0" = some 10 := by rfl
example : py_int "1__0" = none := by rfl
example : py_int "q" = none := by rfl
example : py_int "" = none := by rfl
example : pyLower "Q" = "q" := by rfl
example : pyStrip " q " = "q" := by rfl
example : firstToken "-2:xyz" = "-2" := by rfl

/-! ## Order lemmas for the sibling sort -/

theorem charEqOfToNatEq {a b : Char} (h : a.toNat = b.toNat) : a = b := by
  have := Char.ofNat_toNat a
  rw [h, Char.ofNat_toNat b] at this
  exact this.symm

theorem chLt_trans : ∀ {a b c : List Char},
    chLt a b = true → chLt b c = true → chLt a c = true
  | [], _ :: _, _ :: _, _, _ => rfl
  | x :: xs, y :: ys, z :: zs, hab, hbc => by
    simp only [chLt] at *
    split_ifs at hab hbc ⊢ with h1 h2 h3 h4 h5 h6 <;> try omega
    all_goals try simp_all
    exact chLt_trans hab hbc

theorem chLt_asymm : ∀ {a b : List Char}, chLt a b = true → chLt b a = false
  | [], _ :: _, _ => rfl
  | x :: xs, y :: ys, hab => by
    simp only [chLt] at *
    split_ifs at hab ⊢ <;> try omega
    all_goals try simp_all
    exact chLt_asymm hab

theorem chLt_conn : ∀ {a b : List Char}, chLt a b = false → chLt b a = false → a = b
  | [], [], _, _ => rfl
  | [], _ :: _, hab, _ => by simp [chLt] at hab
  | _ :: _, [], _, hba => by simp [chLt] at hba
  | x :: xs, y :: ys, hab, hba => by
    simp only [chLt] at hab hba
    split_ifs at hab hba with h1 h2 <;> try omega
    have hx : x = y := charEqOfToNatEq (by omega)
    have := chLt_conn hab hba
    rw [hx, this]

theorem entLe_trans {a b c : NodeEntry} (h1 : entLe a b) (h2 : entLe b c) : entLe a c := by
  unfold entLe at *
  by_contra hca
  have hca' : chLt (lowName c) (lowName a) = true := by
    cases h : chLt (lowName c) (lowName a) <;> simp_all
  cases hab : chLt (lowName a) (lowName b) with
  | true => have := chLt_trans hca' hab; simp_all
  | false =>
    have : lowName a = lowName b := chLt_conn hab h1
    rw [this] at hca'
    simp_all

/-- Inserting preserves being a permutation of the cons. -/
theorem insEnt_perm (e : NodeEntry) : ∀ l : List NodeEntry, (insEnt e l).Perm (e :: l)
  | [] => List.Perm.refl _
  | x :: xs => by
    unfold insEnt
    split_ifs
    · exact ((insEnt_perm e xs).cons x).trans (List.Perm.swap e x xs)
    · exact List.Perm.refl _

theorem sortEntries_perm : ∀ l : List NodeEntry, (sortEntries l).Perm l
  | [] => List.Perm.refl _
  | x :: xs => by
    unfold sortEntries
    exact (insEnt_perm x (sortEntries xs)).trans ((sortEntries_perm xs).cons x)

theorem insEnt_pairwise {e : NodeEntry} : ∀ {l : List NodeEntry},
    l.Pairwise entLe → (insEnt e l).Pairwise entLe
  | [], _ => by simp [insEnt, List.pairwise_cons]
  | x :: xs, h => by
    rw [List.pairwise_cons] at h
    unfold insEnt
    split_ifs with hlt
    · rw [List.pairwise_cons]
      refine ⟨fun y hy => ?_, insEnt_pairwise h.2⟩
      rcases List.mem_cons.mp (((insEnt_perm e xs).mem_iff).mp hy) with rfl | hy'
      · exact chLt_asymm hlt
      · exact h.1 y hy'
    · rw [List.pairwise_cons]
      have hex : entLe e x := by
        unfold entLe
        cases hc : chLt (lowName x) (lowName e) <;> simp_all [entLt]
      refine ⟨fun y hy => ?_, List.pairwise_cons.mpr h⟩
      rcases List.mem_cons.mp hy with rfl | hy'
      · exact hex
      · exact entLe_trans hex (h.1 y hy')

theorem sortEntries_pairwise : ∀ l : List NodeEntry, (sortEntries l).Pairwise entLe
  | [] => List.Pairwise.nil
  | x :: xs => by
    unfold sortEntries
    exact insEnt_pairwise (sortEntries_pairwise xs)

/-- A sorted list with pairwise distinct sort keys is determined by its
multiset of elements: two sorted permutations with injective keys coincide. -/
theorem sorted_eq_of_perm : ∀ {l₁ l₂ : List NodeEntry}, l₁.Perm l₂ →
    l₁.Pairwise entLe → l₂.Pairwise entLe → (l₁.map lowName).Nodup → l₁ = l₂
  | [], l₂, hp, _, _, _ => (hp.nil_eq).symm ▸ rfl
  | x :: xs, [], hp, _, _, _ => absurd hp.symm (by simp)
  | x :: xs, y :: ys, hp, h₁, h₂, hn => by
    rcases eq_or_ne x y with rfl | hxy
    · have := sorted_eq_of_perm (hp.cons_inv)
        (List.pairwise_cons.mp h₁).2 (List.pairwise_cons.mp h₂).2
        (by simpa using hn.of_cons)
      rw [this]
    · exfalso
      have hxmem : x ∈ y :: ys := hp.mem_iff.mp (List.mem_cons_self x xs)
      have hymem : y ∈ x :: xs := hp.mem_iff.mpr (List.mem_cons_self y ys)
      have hxys : x ∈ ys := by
        rcases List.mem_cons.mp hxmem with h | h
        · exact absurd h hxy
        · exact h
      have hyxs : y ∈ xs := by
        rcases List.mem_cons.mp hymem with h | h
        · exact absurd h.symm hxy
        · exact h
      have hle1 : entLe x y := (List.pairwise_cons.mp h₁).1 y hyxs
      have hle2 : entLe y x := (List.pairwise_cons.mp h₂).1 x hxys
      have hlow : lowName x = lowName y := chLt_conn hle2 hle1
      exact hxy (List.inj_on_of_nodup_map hn (List.mem_cons_self x xs) hymem hlow)

theorem sortEntries_eq_of_perm {l₁ l₂ : List NodeEntry} (hp : l₁.Perm l₂)
    (hn : (l₁.map lowName).Nodup) : sortEntries l₁ = sortEntries l₂ := by
  refine sorted_eq_of_perm ?_ (sortEntries_pairwise l₁) (sortEntries_pairwise l₂) ?_
  · exact (sortEntries_perm l₁).trans (hp.trans (sortEntries_perm l₂).symm)
  · exact (((sortEntries_perm l₁).map lowName).nodup_iff).mpr hn

/-! ## Renderer and flattener lemmas -/

theorem range'_split (idx a b : Nat) :
    List.range' idx (1 + a + b) =
      idx :: (List.range' (idx + 1) a ++ List.range' (idx + 1 + a) b) := by
  have h := List.range'_append (idx + 1) a b 1
  rw [show 1 + a + b = (a + b) + 1 from by omega, List.range'_succ,
    show a + b = b + a from Nat.add_comm a b, ← h]
  simp

theorem preorderNodes_length : ∀ cs : List CNode,
    (preorderNodes cs).length = countNodes cs := by
  intro cs
  induction cs using countNodes.induct with
  | case1 => simp [preorderNodes, countNodes]
  | case2 k n ch rest ih1 ih2 =>
    simp [preorderNodes, countNodes, ih1, ih2]
    omega

theorem print_tree_next : ∀ (cs : List CNode) (pfx : String) (idx : Nat),
    (print_tree cs pfx idx).2.2 = idx + countNodes cs := by
  intro cs
  induction cs using countNodes.induct with
  | case1 => intro pfx idx; simp [print_tree, countNodes]
  | case2 k n ch rest ih1 ih2 =>
    intro pfx idx
    by_cases hch : ch.isEmpty = true
    · have hch' : ch = [] := List.isEmpty_iff.mp hch
      subst hch'
      simp [print_tree, countNodes, ih2]
      omega
    · simp [print_tree, countNodes, hch, ih1, ih2]
      omega

theorem print_tree_items : ∀ (cs : List CNode) (pfx : String) (idx : Nat),
    (print_tree cs pfx idx).2.1 = preorderNodes cs := by
  intro cs
  induction cs using countNodes.induct with
  | case1 => intro pfx idx; simp [print_tree, preorderNodes]
  | case2 k n ch rest ih1 ih2 =>
    intro pfx idx
    by_cases hch : ch.isEmpty = true
    · have hch' : ch = [] := List.isEmpty_iff.mp hch
      subst hch'
      simp [print_tree, preorderNodes, ih2]
    · simp [print_tree, preorderNodes, hch, ih1, ih2]

theorem print_tree_idxs : ∀ (cs : List CNode) (pfx : String) (idx : Nat),
    ((print_tree cs pfx idx).1).map TreeLine.idx = List.range' idx (countNodes cs) := by
  intro cs
  induction cs using countNodes.induct with
  | case1 => intro pfx idx; simp [print_tree, countNodes]
  | case2 k n ch rest ih1 ih2 =>
    intro pfx idx
    by_cases hch : ch.isEmpty = true
    · have hch' : ch = [] := List.isEmpty_iff.mp hch
      subst hch'
      have hcount : countNodes (CNode.mk k n [] :: rest) = 1 + 0 + countNodes rest := by
        simp [countNodes]
      rw [hcount, range'_split]
      simp [print_tree, ih2]
    · have hnext := print_tree_next ch
        (pfx ++ if rest.isEmpty = true then "    " else "│   ") (idx + 1)
      have hcount : countNodes (CNode.mk k n ch :: rest) =
          1 + countNodes ch + countNodes rest := by simp [countNodes]
      rw [hcount, range'_split]
      simp [print_tree, hch, ih1, ih2, hnext]

theorem print_tree_texts : ∀ (cs : List CNode) (pfx : String) (idx : Nat),
    ((print_tree cs pfx idx).1).map TreeLine.text = (preorderNodes cs).map CNode.name := by
  intro cs
  induction cs using countNodes.induct with
  | case1 => intro pfx idx; simp [print_tree, preorderNodes]
  | case2 k n ch rest ih1 ih2 =>
    intro pfx idx
    by_cases hch : ch.isEmpty = true
    · have hch' : ch = [] := List.isEmpty_iff.mp hch
      subst hch'
      simp [print_tree, preorderNodes, CNode.name, ih2]
    · simp [print_tree, preorderNodes, CNode.name, hch, ih1, ih2]

theorem add_collections_pairs : ∀ (cs : List CNode) (i : Option Int) (nm : String) (d : Nat),
    (add_collections i nm cs d).map (fun it => (it.key, it.name)) =
      (preorderNodes cs).map (fun t => (some t.key, t.name)) := by
  intro cs
  induction cs using countNodes.induct with
  | case1 => intro i nm d; simp [add_collections, preorderNodes]
  | case2 k n ch rest ih1 ih2 =>
    intro i nm d
    by_cases hch : ch.isEmpty = true
    · have hch' : ch = [] := List.isEmpty_iff.mp hch
      subst hch'
      simp [add_collections, preorderNodes, CNode.key, CNode.name, ih2]
    · simp [add_collections, preorderNodes, CNode.key, CNode.name, hch, ih1, ih2]

theorem add_collections_length : ∀ (cs : List CNode) (i : Option Int) (nm : String) (d : Nat),
    (add_collections i nm cs d).length = countNodes cs := by
  intro cs i nm d
  have h := congrArg List.length (add_collections_pairs cs i nm d)
  simpa [preorderNodes_length] using h

theorem add_collections_mem : ∀ (cs : List CNode) (i : Option Int) (nm : String) (d : Nat),
    ∀ it ∈ add_collections i nm cs d, it.type = "collection" ∧ it.id = i := by
  intro cs
  induction cs using countNodes.induct with
  | case1 => intro i nm d it hit; simp [add_collections] at hit
  | case2 k n ch rest ih1 ih2 =>
    intro i nm d it hit
    by_cases hch : ch.isEmpty = true
    · have hch' : ch = [] := List.isEmpty_iff.mp hch
      subst hch'
      simp [add_collections] at hit
      rcases hit with rfl | hit'
      · exact ⟨rfl, rfl⟩
      · exact ih2 i nm d it hit'
    · simp [add_collections, hch] at hit
      rcases hit with rfl | hit' | hit'
      · exact ⟨rfl, rfl⟩
      · exact ih1 i nm (d + 1) it hit'
      · exact ih2 i nm d it hit'

theorem print_tree_matches : ∀ (cs : List CNode) (pfx : String) (idx : Nat)
    (i : Option Int) (nm : String) (d : Nat),
    List.Forall₂ lineMatches (print_tree cs pfx idx).1 (add_collections i nm cs d) := by
  intro cs
  induction cs using countNodes.induct with
  | case1 => intro pfx idx i nm d; simp [print_tree, add_collections]
  | case2 k n ch rest ih1 ih2 =>
    intro pfx idx i nm d
    by_cases hch : ch.isEmpty = true
    · have hch' : ch = [] := List.isEmpty_iff.mp hch
      subst hch'
      simp only [print_tree, add_collections]
      simp only [List.isEmpty_nil, if_true, List.nil_append]
      refine List.forall₂_cons.mpr ⟨Or.inr ⟨rfl, rfl⟩, ?_⟩
      exact ih2 pfx _ i nm d
    · simp only [print_tree, add_collections, hch, if_false]
      refine List.forall₂_cons.mpr ⟨Or.inr ⟨rfl, rfl⟩, ?_⟩
      exact List.rel_append (ih1 _ _ i nm (d + 1)) (ih2 pfx _ i nm d)

theorem numbered_display_next : ∀ (libs : List Library) (idx : Nat),
    (numbered_display libs idx).2 = idx + flatCount libs := by
  intro libs
  induction libs with
  | nil => intro idx; simp [numbered_display, flatCount]
  | cons lib rest ih =>
    intro idx
    by_cases hc : lib.collections.isEmpty = true
    · have hc' : countNodes lib.collections = 0 := by
        rw [List.isEmpty_iff.mp hc]; simp [countNodes]
      simp [numbered_display, flatCount, hc, hc', ih]
      omega
    · simp [numbered_display, flatCount, hc, ih, print_tree_next]
      omega

theorem numbered_display_idxs : ∀ (libs : List Library) (idx : Nat),
    ((numbered_display libs idx).1).map TreeLine.idx = List.range' idx (flatCount libs) := by
  intro libs
  induction libs with
  | nil => intro idx; simp [numbered_display, flatCount]
  | cons lib rest ih =>
    intro idx
    by_cases hc : lib.collections.isEmpty = true
    · have hc' : countNodes lib.collections = 0 := by
        rw [List.isEmpty_iff.mp hc]; simp [countNodes]
      rw [show flatCount (lib :: rest) = 1 + countNodes lib.collections + flatCount rest
        from rfl, range'_split]
      simp [numbered_display, hc, hc', ih]
    · rw [show flatCount (lib :: rest) = 1 + countNodes lib.collections + flatCount rest
        from rfl, range'_split]
      simp [numbered_display, hc, ih, print_tree_next, print_tree_idxs]

theorem numbered_display_matches : ∀ (libs : List Library) (idx : Nat),
    List.Forall₂ lineMatches (numbered_display libs idx).1 (build_flat_list libs) := by
  intro libs
  induction libs with
  | nil => intro idx; simp [numbered_display, build_flat_list]
  | cons lib rest ih =>
    intro idx
    have hbf : build_flat_list (lib :: rest) =
        (⟨"library", lib.id, lib.name, none, lib.name ++ " (root)"⟩ :
          SelItem) ::
        ((if lib.collections.isEmpty then []
          else add_collections lib.id lib.name lib.collections 0) ++ build_flat_list rest) := by
      simp [build_flat_list]
    rw [hbf]
    by_cases hc : lib.collections.isEmpty = true
    · simp only [numbered_display, hc, if_true, List.nil_append]
      refine List.forall₂_cons.mpr ⟨Or.inl ⟨rfl, rfl⟩, ?_⟩
      exact ih _
    · simp only [numbered_display, hc, if_false]
      refine List.forall₂_cons.mpr ⟨Or.inl ⟨rfl, rfl⟩, ?_⟩
      exact List.rel_append (print_tree_matches _ _ _ _ _ _) (ih _)

theorem build_flat_list_cons (lib : Library) (rest : List Library) :
    build_flat_list (lib :: rest) =
      ((⟨"library", lib.id, lib.name, none, lib.name ++ " (root)"⟩ : SelItem) ::
       (if lib.collections.isEmpty then []
        else add_collections lib.id lib.name lib.collections 0)) ++ build_flat_list rest := by
  simp [build_flat_list]

theorem build_flat_list_length : ∀ libs : List Library,
    (build_flat_list libs).length = flatCount libs := by
  intro libs
  induction libs with
  | nil => simp [build_flat_list, flatCount]
  | cons lib rest ih =>
    rw [build_flat_list_cons]
    by_cases hc : lib.collections.isEmpty = true
    · have hc' : countNodes lib.collections = 0 := by
        rw [List.isEmpty_iff.mp hc]; simp [countNodes]
      simp [flatCount, hc, hc', ih]
      omega
    · simp [flatCount, hc, ih, add_collections_length]
      omega

/-! ## Claim theorems: renderer, flattener, numbered selector -/

/-- An input whose lowercase form is `q` never parses as an integer, so the
quit test and the integer path of `numbered_select` are mutually
exclusive. -/
theorem py_int_of_lower_q {s : String} (hq : pyLower s = "q") : py_int s = none := by
  have hdata : s.data.map lowerChar = ['q'] := congrArg String.data hq
  cases hsd : s.data with
  | nil =>
    rw [hsd] at hdata
    simp at hdata
  | cons c cs =>
    rw [hsd] at hdata
    simp only [List.map_cons, List.cons.injEq] at hdata
    obtain ⟨hc, hcs⟩ := hdata
    have hcs' : cs = [] := List.map_eq_nil_iff.mp hcs
    subst hcs'
    by_cases hw : isPyWs c = true
    · have hsde : (pyStrip s).data = [] := by
        simp [pyStrip, hsd, List.dropWhile, hw]
      unfold py_int
      rw [hsde]
    · have hdc : (pyStrip s).data = [c] := by
        simp [pyStrip, hsd, List.dropWhile, hw]
      unfold py_int
      rw [hdc]
      by_cases hplus : c = '+'
      · simp [hplus, pyIntUnsigned]
      · by_cases hminus : c = '-'
        · simp [hplus, hminus, pyIntUnsigned]
        · have hdv : digitVal? c = none := by
            unfold digitVal?
            split_ifs with hd
            · exfalso
              have hlc : lowerChar c = c := by
                unfold lowerChar
                rw [if_neg (by omega)]
              rw [hlc] at hc
              have : c.toNat = 113 := congrArg Char.toNat hc
              omega
            · rfl
          simp [hplus, hminus, pyIntUnsigned, hdv]

/-- C3: the 1-based index printed next to each entry by the numbered
display (library roots plus `print_tree` indices, starting at 1 and
continuing across libraries in the flattener's library order) equals that
entry's 1-based position in `build_flat_list`, and each displayed line
announces exactly the flattened item at that position; in particular
`print_tree` assigns each node an index equal to its 1-based pre-order
position when rendering starts at 1, and returns the pre-order node list,
so the user's number `i` resolves to the node pre-order visits at step
`i`. -/
theorem C3_numbering_round_trip (libs : List Library) :
    ((numbered_display libs 1).1).length = (build_flat_list libs).length ∧
    (∀ t (h1 : t < ((numbered_display libs 1).1).length)
        (h2 : t < (build_flat_list libs).length),
      ((numbered_display libs 1).1)[t].idx = t + 1 ∧
      lineMatches ((numbered_display libs 1).1)[t] (build_flat_list libs)[t]) ∧
    (∀ (inp : String) (n : Int), py_int (pyStrip inp) = some n →
      1 ≤ n → n ≤ ((build_flat_list libs).length : Int) →
      (numbered_select (build_flat_list libs) libs (some inp)).2 =
        (build_flat_list libs)[(n.toNat - 1)]?) ∧
    (∀ (cs : List CNode) (pfx : String),
      (print_tree cs pfx 1).2.1 = preorderNodes cs ∧
      ∀ t (h : t < ((print_tree cs pfx 1).1).length),
        ((print_tree cs pfx 1).1)[t].idx = t + 1) := by
  have hf := numbered_display_matches libs 1
  have hlen := (List.forall₂_iff_get.mp hf).1
  refine ⟨hlen, fun t h1 h2 => ⟨?_, ?_⟩, ?_, fun cs pfx => ⟨print_tree_items cs pfx 1, ?_⟩⟩
  · have hm := numbered_display_idxs libs 1
    have h3 : t < ((numbered_display libs 1).1.map TreeLine.idx).length := by
      simpa using h1
    have h4 : t < (List.range' 1 (flatCount libs)).length := by
      rw [← hm]; exact h3
    have := congrArg (fun l => l[t]?) hm
    simp only [List.getElem?_map, List.getElem?_eq_getElem h1,
      List.getElem?_eq_getElem h4, Option.map_some, List.getElem_range'] at this
    have := Option.some.inj this
    omega
  · exact (List.forall₂_iff_get.mp hf).2 t h1 h2
  · intro inp n hp h1 hn
    have hq : ¬ (pyLower (pyStrip inp) = "q") := by
      intro h
      exact absurd (hp.symm.trans (py_int_of_lower_q h)) (by simp)
    simp [numbered_select, hq, hp]
    split
    · exfalso
      omega
    · rfl
  · intro t h
    have hm := print_tree_idxs cs pfx 1
    have h3 : t < ((print_tree cs pfx 1).1.map TreeLine.idx).length := by simpa using h
    have h4 : t < (List.range' 1 (countNodes cs)).length := by rw [← hm]; exact h3
    have := congrArg (fun l => l[t]?) hm
    simp only [List.getElem?_map, List.getElem?_eq_getElem h,
      List.getElem?_eq_getElem h4, Option.map_some, List.getElem_range'] at this
    have := Option.some.inj this
    omega

/-- C3 witness: instantiation at a concrete one-library listing. -/
theorem C3_numbering_round_trip_witness :
    ((numbered_display [demoLib] 1).1).length = (build_flat_list [demoLib]).length ∧
    (∃ l it, ((numbered_display [demoLib] 1).1)[2]? = some l ∧
      (build_flat_list [demoLib])[2]? = some it ∧ l.idx = 2 + 1 ∧ lineMatches l it) ∧
    (numbered_select (build_flat_list [demoLib]) [demoLib] (some "3")).2 =
      (build_flat_list [demoLib])[2]? := by
  have h := C3_numbering_round_trip [demoLib]
  have hlen : ((numbered_display [demoLib] 1).1).length = 6 := by
    simp [numbered_display, print_tree, demoLib, demoForest]
  have h1 : (2 : Nat) < ((numbered_display [demoLib] 1).1).length := by omega
  have h2 : (2 : Nat) < (build_flat_list [demoLib]).length := by rw [← h.1]; omega
  have hsel := h.2.2.1 "3" 3 (by rfl) (by omega) (by rw [← h.1]; simp [hlen])
  exact ⟨h.1, ⟨((numbered_display [demoLib] 1).1)[2], (build_flat_list [demoLib])[2],
    List.getElem?_eq_getElem h1, List.getElem?_eq_getElem h2,
    (h.2.1 2 h1 h2).1, (h.2.1 2 h1 h2).2⟩, hsel⟩

/-- C5: `build_flat_list` emits one contiguous segment per library, in the
order supplied; each segment has exactly `1 + countNodes` items, starts
with the `library` root item carrying a null key, and continues with one
`collection` item per node in depth-first pre-order. -/
theorem C5_flattener_segments (libs : List Library) :
    build_flat_list libs = libs.flatMap librarySegment ∧
    ∀ lib : Library,
      (librarySegment lib).length = 1 + countNodes lib.collections ∧
      (librarySegment lib).head? =
        some ⟨"library", lib.id, lib.name, none, lib.name ++ " (root)"⟩ ∧
      ((librarySegment lib).tail).map (fun it => (it.key, it.name)) =
        (preorderNodes lib.collections).map (fun t => (some t.key, t.name)) ∧
      ∀ it ∈ (librarySegment lib).tail, it.type = "collection" ∧ it.id = lib.id := by
  refine ⟨rfl, fun lib => ⟨?_, rfl, ?_, ?_⟩⟩
  · by_cases hc : lib.collections.isEmpty = true
    · have hc' : countNodes lib.collections = 0 := by
        rw [List.isEmpty_iff.mp hc]; simp [countNodes]
      simp [librarySegment, hc, hc']
    · simp [librarySegment, hc, add_collections_length]
      omega
  · by_cases hc : lib.collections.isEmpty = true
    · have hc' : lib.collections = [] := List.isEmpty_iff.mp hc
      simp [librarySegment, hc, hc', preorderNodes]
    · simp [librarySegment, hc, add_collections_pairs]
  · intro it hit
    by_cases hc : lib.collections.isEmpty = true
    · simp [librarySegment, hc] at hit
    · simp only [librarySegment, hc, if_false, List.tail_cons] at hit
      exact add_collections_mem _ _ _ _ it hit

/-- C5 witness: instantiation at a concrete library. -/
theorem C5_flattener_segments_witness :
    build_flat_list [demoLib] = [demoLib].flatMap librarySegment ∧
    (librarySegment demoLib).length = 1 + countNodes demoLib.collections ∧
    ((⟨"collection", some 1, "a", some "A", "My Library > a"⟩ : SelItem).type =
        "collection" ∧
      (⟨"collection", some 1, "a", some "A", "My Library > a"⟩ : SelItem).id =
        demoLib.id) := by
  refine ⟨(C5_flattener_segments [demoLib]).1, ((C5_flattener_segments [demoLib]).2 demoLib).1,
    ((C5_flattener_segments [demoLib]).2 demoLib).2.2.2 _ ?_⟩
  simp [librarySegment, add_collections, demoLib, demoForest]
  rfl

/-- C6: the numbered selector yields no selection on input `q` or `Q`, on
`0`, on any integer beyond the flattened length, on any non-integer input,
and on end of input; it is a total function (never raises); and input `3`
against a five-item list returns the item at 0-based index 2. -/
theorem C6_numbered_selector (items : List SelItem) (libs : List Library) :
    (numbered_select items libs (some "q")).2 = none ∧
    (numbered_select items libs (some "Q")).2 = none ∧
    (numbered_select items libs (some "0")).2 = none ∧
    (∀ (s : String) (n : Int), py_int (pyStrip s) = some n →
      (items.length : Int) < n → (numbered_select items libs (some s)).2 = none) ∧
    (∀ s : String, py_int (pyStrip s) = none →
      (numbered_select items libs (some s)).2 = none) ∧
    (numbered_select items libs none).2 = none ∧
    (items.length = 5 → (numbered_select items libs (some "3")).2 = items[2]?) := by
  refine ⟨rfl, rfl, ?_, ?_, ?_, rfl, ?_⟩
  · have h1 : pyLower (pyStrip "0") ≠ "q" := by decide
    have h2 : py_int (pyStrip "0") = some 0 := by rfl
    simp [numbered_select, h1, h2]
  · intro s n hp hgt
    by_cases hq : pyLower (pyStrip s) = "q"
    · simp [numbered_select, hq]
    · simp [numbered_select, hq, hp]
      split
      · rfl
      · omega
  · intro s hp
    by_cases hq : pyLower (pyStrip s) = "q"
    · simp [numbered_select, hq]
    · simp [numbered_select, hq, hp]
  · intro h5
    have h1 : pyLower (pyStrip "3") ≠ "q" := by decide
    have h2 : py_int (pyStrip "3") = some 3 := by rfl
    simp [numbered_select, h1, h2]
    split
    · omega
    · rfl

/-- C6 witness: instantiation at a concrete five-item list. -/
theorem C6_numbered_selector_witness :
    (numbered_select demoItems [] (some "3")).2 = demoItems[2]? ∧
    (numbered_select demoItems [] (some "9")).2 = none ∧
    (numbered_select demoItems [] (some "xy")).2 = none := by
  refine ⟨(C6_numbered_selector demoItems []).2.2.2.2.2.2 (by decide),
    (C6_numbered_selector demoItems []).2.2.2.1 "9" 9 (by rfl) (by decide),
    (C6_numbered_selector demoItems []).2.2.2.2.1 "xy" (by rfl)⟩

/-! ## Claim theorems: listing assembly and fuzzy selector -/

/-- C8: when the collections fetch for one group fails while the personal
and group-list fetches succeed, `list_collections_native` still returns the
full listing: one library per group plus the personal library, with the
failing group present and carrying an empty collections list. -/
theorem C8_group_fetch_degrades (pcs : List RawCollection) (gs : List GroupRec)
    (fetch : Option Int → FetchResult (List RawCollection)) (g : GroupRec)
    (hg : g ∈ gs) (hf : fetch g.id = .err) :
    ∃ libs, list_collections_native (.ok pcs) (.ok gs) fetch = some libs ∧
      libs.length = 1 + gs.length ∧
      (∃ lib ∈ libs, lib.id = g.id ∧ lib.name = groupName g ∧ lib.type = "group" ∧
        lib.collections = []) ∧
      (∀ g' ∈ gs, ∃ lib ∈ libs, lib.id = g'.id ∧ lib.name = groupName g' ∧
        lib.type = "group") := by
  refine ⟨_, rfl, by simp; omega, ?_, ?_⟩
  · refine ⟨⟨g.id, groupName g, "group", _build_collection_tree
      (match fetch g.id with | .ok cs => cs | .err => [])⟩, ?_, rfl, rfl, rfl, ?_⟩
    · exact List.mem_cons_of_mem _ (List.mem_map_of_mem _ hg)
    · rw [hf]
      rfl
  · intro g' hg'
    exact ⟨_, List.mem_cons_of_mem _ (List.mem_map_of_mem _ hg'), rfl, rfl, rfl⟩

/-- C8 witness: three groups, the middle one's fetch failing. -/
theorem C8_group_fetch_degrades_witness :
    ∃ libs, list_collections_native (.ok [])
        (.ok [⟨some 10, some "G1", none⟩, ⟨some 20, some "G2", none⟩,
              ⟨some 30, some "G3", none⟩])
        (fun i => if i = some 20 then .err else .ok []) = some libs ∧
      libs.length = 1 + 3 ∧
      (∃ lib ∈ libs, lib.id = some 20 ∧
        lib.name = groupName ⟨some 20, some "G2", none⟩ ∧ lib.type = "group" ∧
        lib.collections = []) ∧
      (∀ g' ∈ [(⟨some 10, some "G1", none⟩ : GroupRec), ⟨some 20, some "G2", none⟩,
          ⟨some 30, some "G3", none⟩],
        ∃ lib ∈ libs, lib.id = g'.id ∧ lib.name = groupName g' ∧ lib.type = "group") := by
  exact C8_group_fetch_degrades [] _ _ ⟨some 20, some "G2", none⟩
    (by simp) (by simp)

/-- C9: every fzf failure mode (binary absent, subprocess raised, non-zero
exit, empty output, unparseable leading token) makes `fuzzy_select` return
no selection without raising, and `interactive_select` in fuzzy mode then
prints the one-line notice and runs the numbered fallback on the same item
list — the failure is never surfaced as an error. -/
theorem C9_fuzzy_failure_falls_back :
    (∀ (items : List SelItem) (o : FzfOutcome), FzfFailed o →
      fuzzy_select items o = none) ∧
    (∀ (libs : List Library) (o : FzfOutcome) (inp : Option String)
        (plugin : Option Int → Option String → Option PluginResp),
      libs ≠ [] → FzfFailed o →
      (interactive_select (some libs) true o inp plugin).noticePrinted = true ∧
      (interactive_select (some libs) true o inp plugin).usedNumbered = true ∧
      (interactive_select (some libs) true o inp plugin).selected =
        (numbered_select (build_flat_list libs) libs inp).2) := by
  have hfz : ∀ (items : List SelItem) (o : FzfOutcome), FzfFailed o →
      fuzzy_select items o = none := by
    intro items o ho
    cases o with
    | absent => rfl
    | crash => rfl
    | ran rc out =>
      rcases ho with h | h | h
      · simp [fuzzy_select, h]
      · simp [fuzzy_select, h]
      · by_cases hrc : rc = 0
        · simp [fuzzy_select, hrc, h]
        · simp [fuzzy_select, hrc]
  refine ⟨hfz, ?_⟩
  intro libs o inp plugin hne ho
  have hemp : libs.isEmpty = false := by
    cases libs with
    | nil => exact absurd rfl hne
    | cons a l => rfl
  have hsel := hfz (build_flat_list libs) o ho
  cases hres : (numbered_select (build_flat_list libs) libs inp).2 with
  | none => simp [interactive_select, hemp, hsel, hres]
  | some it =>
    cases hpl : plugin it.id it.key with
    | none => simp [interactive_select, hemp, hsel, hres, hpl]
    | some r => simp [interactive_select, hemp, hsel, hres, hpl]

/-- C9 witness: a concrete one-library listing with the fzf binary absent. -/
theorem C9_fuzzy_failure_falls_back_witness :
    fuzzy_select demoItems .absent = none ∧
    (interactive_select (some [demoLib]) true .absent (some "q")
      (fun _ _ => some ⟨true, none⟩)).noticePrinted = true ∧
    (interactive_select (some [demoLib]) true .absent (some "q")
      (fun _ _ => some ⟨true, none⟩)).usedNumbered = true := by
  refine ⟨C9_fuzzy_failure_falls_back.1 demoItems .absent trivial, ?_, ?_⟩
  · exact (C9_fuzzy_failure_falls_back.2 [demoLib] .absent (some "q") _
      (by simp) trivial).1
  · exact (C9_fuzzy_failure_falls_back.2 [demoLib] .absent (some "q") _
      (by simp) trivial).2.1

/-- C10: when the subprocess exits 0 and the leading colon-delimited token
parses as a negative integer `z` with `-z` at most the item count,
`fuzzy_select` returns the item at Python's negative index — position
`length + z` — instead of treating it as a failure. -/
theorem C10_fuzzy_negative_index (items : List SelItem) (out : String) (z : Int)
    (hne : pyStrip out ≠ "")
    (hp : py_int (firstToken (pyStrip out)) = some z)
    (hneg : z < 0) (hrange : -z ≤ (items.length : Int)) :
    fuzzy_select items (.ran 0 out) = items[(items.length - (-z).toNat)]? ∧
    (items[(items.length - (-z).toNat)]?).isSome = true := by
  have hidx : ((z + (items.length : Int)).toNat) = items.length - (-z).toNat := by
    omega
  have hj : (0 : Int) ≤ z + (items.length : Int) ∧
      z + (items.length : Int) < (items.length : Int) := by omega
  have hlt : items.length - (-z).toNat < items.length := by omega
  constructor
  · simp [fuzzy_select, hne, hp, pyGetItem, hneg, hj, hidx]
  · rw [List.getElem?_eq_getElem hlt]
    rfl

/-- C10 witness: stdout `-2:x` against a five-item list selects index 3. -/
theorem C10_fuzzy_negative_index_witness :
    fuzzy_select demoItems (.ran 0 "-2:x") = demoItems[3]? ∧
    (demoItems[3]?).isSome = true := by
  have h := C10_fuzzy_negative_index demoItems "-2:x" (-2) (by decide) (by rfl)
    (by decide) (by decide)
  simpa using h

/-! ## Builder dictionary lemmas -/

theorem foldl_dictInsert_fresh : ∀ (recs : List RawCollection) (m : List (String × NodeEntry)),
    ((m.map Prod.fst) ++ recs.map recKey).Nodup →
    recs.foldl (fun acc c => dictInsert acc (recKey c) (mkNodeEntry c)) m =
      m ++ recs.map (fun c => (recKey c, mkNodeEntry c)) := by
  intro recs
  induction recs with
  | nil => intro m h; simp
  | cons c rest ih =>
    intro m h
    have hfresh : recKey c ∉ m.map Prod.fst := by
      intro hmem
      rcases List.nodup_append.mp h with ⟨_, _, hd⟩
      exact hd hmem (by simp)
    have hany : m.any (fun p => p.1 == recKey c) = false := by
      rw [List.any_eq_false]
      intro p hp
      simp only [beq_iff_eq]
      intro hpk
      exact hfresh (hpk ▸ List.mem_map_of_mem Prod.fst hp)
    have hins : dictInsert m (recKey c) (mkNodeEntry c) =
        m ++ [(recKey c, mkNodeEntry c)] := by
      simp [dictInsert, hany]
    have hnodup : (((m ++ [(recKey c, mkNodeEntry c)]).map Prod.fst) ++
        rest.map recKey).Nodup := by
      have heq : ((m ++ [(recKey c, mkNodeEntry c)]).map Prod.fst) ++ rest.map recKey =
          (m.map Prod.fst) ++ (recKey c :: rest.map recKey) := by
        simp
      rw [heq]
      simpa using h
    calc (c :: rest).foldl (fun acc c => dictInsert acc (recKey c) (mkNodeEntry c)) m
        = rest.foldl (fun acc c => dictInsert acc (recKey c) (mkNodeEntry c))
            (m ++ [(recKey c, mkNodeEntry c)]) := by rw [List.foldl_cons, hins]
      _ = (m ++ [(recKey c, mkNodeEntry c)]) ++
            rest.map (fun c => (recKey c, mkNodeEntry c)) := ih _ hnodup
      _ = m ++ (c :: rest).map (fun c => (recKey c, mkNodeEntry c)) := by simp

theorem mkByKey_eq_of_nodup (recs : List RawCollection)
    (hk : (recs.map recKey).Nodup) :
    mkByKey recs = recs.map (fun c => (recKey c, mkNodeEntry c)) := by
  have := foldl_dictInsert_fresh recs [] (by simpa using hk)
  simpa [mkByKey] using this

theorem entriesOf_eq_of_nodup (recs : List RawCollection)
    (hk : (recs.map recKey).Nodup) :
    entriesOf recs = recs.map mkNodeEntry := by
  simp [entriesOf, mkByKey_eq_of_nodup recs hk, List.map_map, Function.comp_def]

theorem entriesOf_keys_of_nodup (recs : List RawCollection)
    (hk : (recs.map recKey).Nodup) :
    (entriesOf recs).map NodeEntry.key = recs.map recKey := by
  rw [entriesOf_eq_of_nodup recs hk, List.map_map]
  rfl

/-! ## Basic facts about entries, children and roots -/

theorem mem_childEntries {entries : List NodeEntry} {x : NodeEntry} {k : String} :
    x ∈ childEntries entries k ↔
      x ∈ entries ∧ resolves entries x = true ∧ x.parentKey = some k := by
  simp [childEntries, List.mem_filter, and_assoc]

theorem mem_rootsPre {entries : List NodeEntry} {e : NodeEntry} :
    e ∈ rootsPre entries ↔ e ∈ entries ∧ resolves entries e = false := by
  simp [rootsPre, List.mem_filter]

theorem key_inj {entries : List NodeEntry}
    (hk : (entries.map NodeEntry.key).Nodup) :
    ∀ a ∈ entries, ∀ b ∈ entries, a.key = b.key → a = b :=
  fun a ha b hb hab => List.inj_on_of_nodup_map hk ha hb hab

theorem parent_of_resolves {entries : List NodeEntry} {e : NodeEntry}
    (hres : resolves entries e = true) :
    ∃ p ∈ entries, e.parentKey = some p.key := by
  unfold resolves at hres
  cases hpk : e.parentKey with
  | none => rw [hpk] at hres; exact absurd hres (by simp)
  | some s =>
    rw [hpk] at hres
    rw [Bool.and_eq_true] at hres
    rcases hres with ⟨_, hany⟩
    obtain ⟨x, hx, hxs⟩ := List.any_eq_true.mp hany
    refine ⟨x, hx, ?_⟩
    rw [beq_iff_eq.mp hxs]

/-! ## Small list helpers -/

theorem any_eq_of_perm {α : Type} {l1 l2 : List α} (h : l1.Perm l2) (p : α → Bool) :
    l1.any p = l2.any p := by
  cases ha : l2.any p with
  | true =>
    obtain ⟨x, hx, hpx⟩ := List.any_eq_true.mp ha
    exact List.any_eq_true.mpr ⟨x, h.mem_iff.mpr hx, hpx⟩
  | false =>
    rw [List.any_eq_false] at ha ⊢
    intro x hx
    exact ha x (h.mem_iff.mp hx)

theorem flatMap_congr_mem {α β : Type} {l : List α} {f g : α → List β}
    (h : ∀ x ∈ l, f x = g x) : l.flatMap f = l.flatMap g := by
  induction l with
  | nil => rfl
  | cons a t ih =>
    simp only [List.flatMap_cons]
    rw [h a (List.mem_cons_self a t), ih (fun x hx => h x (List.mem_cons_of_mem a hx))]

theorem sum_map_add {α : Type} (l : List α) (f g : α → Nat) :
    (l.map (fun c => f c + g c)).sum = (l.map f).sum + (l.map g).sum := by
  induction l with
  | nil => simp
  | cons a t ih => simp [ih]; omega

theorem sum_map_ite_count (l : List NodeEntry) (x : NodeEntry) :
    (l.map (fun c => if c = x then (1 : Nat) else 0)).sum = l.count x := by
  induction l with
  | nil => simp
  | cons a t ih =>
    simp only [List.map_cons, List.sum_cons, List.count_cons, ih]
    by_cases h : a = x <;> simp [h] <;> omega

/-! ## Rank-based counting for the built forest -/

theorem childEntries_mem_entries {entries : List NodeEntry} {k : String} {c : NodeEntry}
    (hc : c ∈ childEntries entries k) : c ∈ entries :=
  (mem_childEntries.mp hc).1

theorem subtreeU_mem {entries : List NodeEntry} :
    ∀ (f : Nat) (e : NodeEntry), e ∈ entries →
      ∀ x ∈ subtreeU entries f e, x ∈ entries := by
  intro f
  induction f with
  | zero =>
    intro e he x hx
    simp only [subtreeU, List.mem_singleton] at hx
    exact hx ▸ he
  | succ f ih =>
    intro e he x hx
    simp only [subtreeU, List.mem_cons, List.mem_flatMap] at hx
    rcases hx with rfl | ⟨c, hc, hxc⟩
    · exact he
    · exact ih c (childEntries_mem_entries hc) x hxc

theorem rank_lt_of_child {entries : List NodeEntry} {rank : String → Nat}
    (hmono : ∀ e ∈ entries, ∀ p ∈ entries, resolves entries e = true →
      e.parentKey = some p.key → rank p.key < rank e.key)
    {e c : NodeEntry} (he : e ∈ entries) (hc : c ∈ childEntries entries e.key) :
    rank e.key < rank c.key := by
  rcases mem_childEntries.mp hc with ⟨hce, hres, hpar⟩
  exact hmono c hce e he hres hpar

theorem subtreeU_stable {entries : List NodeEntry} {rank : String → Nat}
    (hbound : ∀ e ∈ entries, rank e.key < entries.length)
    (hmono : ∀ e ∈ entries, ∀ p ∈ entries, resolves entries e = true →
      e.parentKey = some p.key → rank p.key < rank e.key) :
    ∀ (b : Nat) (e : NodeEntry), e ∈ entries → entries.length - rank e.key ≤ b →
      ∀ f f', b ≤ f → b ≤ f' → subtreeU entries f e = subtreeU entries f' e := by
  intro b
  induction b with
  | zero =>
    intro e he hb f f' _ _
    exact absurd (hbound e he) (by omega)
  | succ b ih =>
    intro e he hb f f' hf hf'
    cases f with
    | zero => omega
    | succ f1 =>
      cases f' with
      | zero => omega
      | succ f2 =>
        simp only [subtreeU]
        congr 1
        apply flatMap_congr_mem
        intro c hc
        have hce := childEntries_mem_entries hc
        have hlt := rank_lt_of_child hmono he hc
        have hcb : entries.length - rank c.key ≤ b := by
          have := hbound c hce
          omega
        exact ih c hce hcb f1 f2 (by omega) (by omega)

theorem subtreeU_unfold {entries : List NodeEntry} {rank : String → Nat}
    (hbound : ∀ e ∈ entries, rank e.key < entries.length)
    (hmono : ∀ e ∈ entries, ∀ p ∈ entries, resolves entries e = true →
      e.parentKey = some p.key → rank p.key < rank e.key)
    {e : NodeEntry} (he : e ∈ entries) :
    subtreeU entries entries.length e =
      e :: (childEntries entries e.key).flatMap (subtreeU entries entries.length) := by
  have h := subtreeU_stable hbound hmono (entries.length - rank e.key) e he le_rfl
    entries.length (entries.length + 1) (Nat.sub_le _ _) (by omega)
  rw [h]
  rfl

theorem count_subtreeU_unresolved {entries : List NodeEntry} {x : NodeEntry}
    (hx : resolves entries x = false) :
    ∀ (f : Nat) (e : NodeEntry), e ∈ entries →
      List.count x (subtreeU entries f e) = if e = x then 1 else 0 := by
  intro f
  induction f with
  | zero =>
    intro e he
    simp [subtreeU, List.count_cons, beq_iff_eq]
  | succ f ih =>
    intro e he
    simp only [subtreeU, List.count_cons, List.count_flatMap]
    have hmap : (childEntries entries e.key).map
        (List.count x ∘ subtreeU entries f) =
        (childEntries entries e.key).map (fun c => if c = x then (1 : Nat) else 0) := by
      apply List.map_congr_left
      intro c hc
      simp only [Function.comp_apply]
      exact ih c (childEntries_mem_entries hc)
    rw [hmap, sum_map_ite_count]
    have hz : (childEntries entries e.key).count x = 0 := by
      apply List.count_eq_zero_of_not_mem
      intro hmem
      rcases mem_childEntries.mp hmem with ⟨_, hres, _⟩
      rw [hx] at hres
      exact Bool.false_ne_true hres
    rw [hz]
    by_cases hex : e = x <;> simp [hex, beq_iff_eq]

theorem count_subtreeU_resolved {entries : List NodeEntry} {rank : String → Nat}
    (hk : (entries.map NodeEntry.key).Nodup)
    (hbound : ∀ e ∈ entries, rank e.key < entries.length)
    (hmono : ∀ e ∈ entries, ∀ p ∈ entries, resolves entries e = true →
      e.parentKey = some p.key → rank p.key < rank e.key)
    {x p : NodeEntry} (hxe : x ∈ entries) (hres : resolves entries x = true)
    (hpe : p ∈ entries) (hpar : x.parentKey = some p.key) :
    ∀ (m : Nat) (e : NodeEntry), e ∈ entries → entries.length - rank e.key ≤ m →
      List.count x (subtreeU entries entries.length e) =
        (if e = x then 1 else 0) +
          List.count p (subtreeU entries entries.length e) := by
  have hpx : p ≠ x := by
    intro h
    have := hmono x hxe p hpe hres hpar
    rw [h] at this
    omega
  intro m
  induction m with
  | zero =>
    intro e he hb
    exact absurd (hbound e he) (by omega)
  | succ m ih =>
    intro e he hb
    rw [subtreeU_unfold hbound hmono he]
    simp only [List.count_cons, List.count_flatMap]
    have hmap : (childEntries entries e.key).map
        (List.count x ∘ subtreeU entries entries.length) =
        (childEntries entries e.key).map
          (fun c => (if c = x then (1 : Nat) else 0) +
            List.count p (subtreeU entries entries.length c)) := by
      apply List.map_congr_left
      intro c hc
      simp only [Function.comp_apply]
      have hce := childEntries_mem_entries hc
      have hlt := rank_lt_of_child hmono he hc
      have hcb : entries.length - rank c.key ≤ m := by
        have := hbound c hce
        omega
      exact ih c hce hcb
    rw [hmap, sum_map_add, sum_map_ite_count]
    have hchx : (childEntries entries e.key).count x = if e = p then 1 else 0 := by
      by_cases hep : e = p
      · subst hep
        rw [if_pos rfl]
        apply List.count_eq_one_of_mem (List.Nodup.filter _ (List.Nodup.of_map _ hk))
        exact mem_childEntries.mpr ⟨hxe, hres, hpar⟩
      · rw [if_neg hep]
        apply List.count_eq_zero_of_not_mem
        intro hmem
        rcases mem_childEntries.mp hmem with ⟨_, _, hpk2⟩
        rw [hpar] at hpk2
        have hkk : e.key = p.key := (Option.some.inj hpk2).symm
        exact hep (key_inj hk e he p hpe hkk)
    have hcomp : (childEntries entries e.key).map
        (List.count p ∘ subtreeU entries entries.length) =
        (childEntries entries e.key).map
          (fun c => List.count p (subtreeU entries entries.length c)) := by
      apply List.map_congr_left
      intro c _
      simp [Function.comp_apply]
    rw [hchx, hcomp]
    simp only [beq_iff_eq]
    by_cases h1 : e = x <;> by_cases h2 : e = p
    · exact absurd (h2.symm.trans h1) hpx
    · have hxp : ¬ (x = p) := fun h => hpx h.symm
      simp [h1, h2, hxp] <;> omega
    · simp [h1, h2] <;> omega
    · simp [h1, h2] <;> omega

theorem count_forest_one {entries : List NodeEntry} {rank : String → Nat}
    (hk : (entries.map NodeEntry.key).Nodup)
    (hbound : ∀ e ∈ entries, rank e.key < entries.length)
    (hmono : ∀ e ∈ entries, ∀ p ∈ entries, resolves entries e = true →
      e.parentKey = some p.key → rank p.key < rank e.key) :
    ∀ x ∈ entries,
      List.count x ((rootsPre entries).flatMap (subtreeU entries entries.length)) = 1 := by
  have hrnodup : (rootsPre entries).Nodup :=
    List.Nodup.filter _ (List.Nodup.of_map _ hk)
  have main : ∀ r : Nat, ∀ x ∈ entries, rank x.key = r →
      List.count x ((rootsPre entries).flatMap (subtreeU entries entries.length)) = 1 := by
    intro r
    induction r using Nat.strong_induction_on with
    | _ r ihr =>
      intro x hx hr
      cases hres : resolves entries x with
      | false =>
        rw [List.count_flatMap]
        have hmap : (rootsPre entries).map
            (List.count x ∘ subtreeU entries entries.length) =
            (rootsPre entries).map (fun e => if e = x then (1 : Nat) else 0) := by
          apply List.map_congr_left
          intro e hemem
          simp only [Function.comp_apply]
          exact count_subtreeU_unresolved hres entries.length e (mem_rootsPre.mp hemem).1
        rw [hmap, sum_map_ite_count]
        exact List.count_eq_one_of_mem hrnodup (mem_rootsPre.mpr ⟨hx, hres⟩)
      | true =>
        obtain ⟨p, hpe, hpar⟩ := parent_of_resolves hres
        have hplt : rank p.key < rank x.key := hmono x hx p hpe hres hpar
        rw [List.count_flatMap]
        have hmap : (rootsPre entries).map
            (List.count x ∘ subtreeU entries entries.length) =
            (rootsPre entries).map
              (fun e => (if e = x then (1 : Nat) else 0) +
                List.count p (subtreeU entries entries.length e)) := by
          apply List.map_congr_left
          intro e hemem
          simp only [Function.comp_apply]
          exact count_subtreeU_resolved hk hbound hmono hx hres hpe hpar
            entries.length e (mem_rootsPre.mp hemem).1 (Nat.sub_le _ _)
        rw [hmap, sum_map_add, sum_map_ite_count]
        have hz : (rootsPre entries).count x = 0 := by
          apply List.count_eq_zero_of_not_mem
          intro hmem
          have := (mem_rootsPre.mp hmem).2
          rw [hres] at this
          exact absurd this (by simp)
        have hp1 : ((rootsPre entries).map
            (List.count p ∘ subtreeU entries entries.length)).sum = 1 := by
          rw [← List.count_flatMap]
          exact ihr (rank p.key) (hr ▸ hplt) p hpe rfl
        have hcomp : (rootsPre entries).map
            (fun e => List.count p (subtreeU entries entries.length e)) =
            (rootsPre entries).map
              (List.count p ∘ subtreeU entries entries.length) := by
          apply List.map_congr_left
          intro e _
          simp [Function.comp_apply]
        rw [hz, hcomp, hp1]
  exact fun x hx => main (rank x.key) x hx rfl

/-! ## From subtree counting to the built forest -/

theorem forestFlat_build_perm (entries : List NodeEntry) :
    ∀ (f : Nat) (es : List NodeEntry),
      (forestFlat (es.map (buildNode entries f))).Perm
        (es.flatMap (fun e => (subtreeU entries f e).map entPair)) := by
  intro f
  induction f with
  | zero =>
    intro es
    induction es with
    | nil => simp [forestFlat]
    | cons e es' ihe =>
      simp only [List.map_cons, List.flatMap_cons, buildNode, subtreeU, forestFlat,
        List.map_nil, List.nil_append, List.map_cons, List.singleton_append,
        List.cons_append, entPair]
      exact List.Perm.cons _ (by simpa using ihe)
  | succ f ihf =>
    intro es
    induction es with
    | nil => simp [forestFlat]
    | cons e es' ihe =>
      have h1 : (forestFlat ((sortEntries (childEntries entries e.key)).map
          (buildNode entries f))).Perm
          ((childEntries entries e.key).flatMap
            (fun c => (subtreeU entries f c).map entPair)) :=
        (ihf (sortEntries (childEntries entries e.key))).trans
          (List.Perm.flatMap_right _ (sortEntries_perm _))
      have hlhs : (e :: es').map (buildNode entries (f + 1)) =
          CNode.mk e.key e.name ((sortEntries (childEntries entries e.key)).map
            (buildNode entries f)) :: es'.map (buildNode entries (f + 1)) := by
        rw [List.map_cons]
        rfl
      have hff : forestFlat (CNode.mk e.key e.name
          ((sortEntries (childEntries entries e.key)).map (buildNode entries f)) ::
            es'.map (buildNode entries (f + 1))) =
          (e.key, e.name) ::
            (forestFlat ((sortEntries (childEntries entries e.key)).map
              (buildNode entries f)) ++
             forestFlat (es'.map (buildNode entries (f + 1)))) := by
        simp [forestFlat]
      have hrhs : (subtreeU entries (f + 1) e).map entPair =
          (e.key, e.name) :: ((childEntries entries e.key).flatMap
            (fun c => (subtreeU entries f c).map entPair)) := by
        rw [show subtreeU entries (f + 1) e =
          e :: (childEntries entries e.key).flatMap (subtreeU entries f) from rfl]
        rw [List.map_cons, List.map_flatMap]
        rfl
      rw [hlhs, hff, List.flatMap_cons, hrhs, List.cons_append]
      exact List.Perm.cons _ (List.Perm.append h1 ihe)

/-- Central helper: with pairwise distinct keys and acyclic parent
pointers, the pre-order key-name listing of the built forest is a
permutation of the input records' key-name pairs — exactly one node per
record, none lost, none duplicated. -/
theorem build_forest_flat_perm (recs : List RawCollection)
    (hk : (recs.map recKey).Nodup) (ha : RankedAcyclic (entriesOf recs)) :
    (forestFlat (_build_collection_tree recs)).Perm
      (recs.map (fun c => (recKey c, recName c))) := by
  obtain ⟨rank, hbound, hmono⟩ := ha
  have hknodup : ((entriesOf recs).map NodeEntry.key).Nodup := by
    rw [entriesOf_keys_of_nodup recs hk]
    exact hk
  have hbuild : _build_collection_tree recs =
      (sortEntries (rootsPre (entriesOf recs))).map
        (buildNode (entriesOf recs) (entriesOf recs).length) := rfl
  rw [hbuild]
  have h1 := forestFlat_build_perm (entriesOf recs) (entriesOf recs).length
    (sortEntries (rootsPre (entriesOf recs)))
  have h2 : ((sortEntries (rootsPre (entriesOf recs))).flatMap
      (fun e => (subtreeU (entriesOf recs) (entriesOf recs).length e).map entPair)).Perm
      ((rootsPre (entriesOf recs)).flatMap
        (fun e => (subtreeU (entriesOf recs) (entriesOf recs).length e).map entPair)) :=
    List.Perm.flatMap_right _ (sortEntries_perm _)
  have h3 : (rootsPre (entriesOf recs)).flatMap
      (fun e => (subtreeU (entriesOf recs) (entriesOf recs).length e).map entPair) =
      ((rootsPre (entriesOf recs)).flatMap
        (subtreeU (entriesOf recs) (entriesOf recs).length)).map entPair :=
    (List.map_flatMap _ _ _).symm
  have h4 : (((rootsPre (entriesOf recs)).flatMap
      (subtreeU (entriesOf recs) (entriesOf recs).length))).Perm (entriesOf recs) := by
    rw [List.perm_iff_count]
    intro a
    by_cases hmem : a ∈ entriesOf recs
    · rw [count_forest_one hknodup hbound hmono a hmem,
        List.count_eq_one_of_mem (List.Nodup.of_map _ hknodup) hmem]
    · rw [List.count_eq_zero_of_not_mem hmem, List.count_eq_zero_of_not_mem]
      intro hin
      rcases List.mem_flatMap.mp hin with ⟨e, he, hsub⟩
      exact hmem (subtreeU_mem (entriesOf recs).length e (mem_rootsPre.mp he).1 a hsub)
  have h5 : ((entriesOf recs).map entPair) =
      recs.map (fun c => (recKey c, recName c)) := by
    rw [entriesOf_eq_of_nodup recs hk, List.map_map]
    rfl
  exact (h1.trans (h2.trans (h3 ▸ (h4.map entPair)))).trans (by rw [h5])

/-! ## Claim theorems: tree builder -/

/-- C1 counterexample: with pairwise distinct keys but a parent cycle,
both records' parents resolve, neither is promoted to a root, and the
returned forest is empty — the records' keys appear zero times among the
nodes reachable from the roots, not once. -/
theorem C1_tree_builder_counterexample :
    (cycRecs.map recKey).Nodup ∧
    forestFlat (_build_collection_tree cycRecs) = [] := by
  refine ⟨by decide, ?_⟩
  rw [show _build_collection_tree cycRecs = [] from rfl]
  simp [forestFlat]

/-- C1 amended: for every flat input record sequence with pairwise distinct
keys AND acyclic parent references (a topological rank exists), the forest
returned by the tree builder contains exactly one node per input record:
the pre-order key-name listing of the forest is a permutation of the
records' key-name pairs, so no key is duplicated, lost, or removed. -/
theorem C1_tree_builder_amended (recs : List RawCollection)
    (hk : (recs.map recKey).Nodup) (ha : RankedAcyclic (entriesOf recs)) :
    (forestFlat (_build_collection_tree recs)).Perm
      (recs.map (fun c => (recKey c, recName c))) :=
  build_forest_flat_perm recs hk ha

/-- C1 witness: the spec's worked example, with an explicit rank. -/
theorem C1_tree_builder_amended_witness :
    (demoRecs.map recKey).Nodup ∧
    (forestFlat (_build_collection_tree demoRecs)).Perm
      (demoRecs.map (fun c => (recKey c, recName c))) :=
  ⟨by decide, C1_tree_builder_amended demoRecs (by decide)
    ⟨fun k => if k = "C" then 1 else 0, by decide, by decide⟩⟩

/-- C4 counterexample: an orphan record (parent key present, non-empty and
matching no key) whose own key is reused by a later record is dropped: the
dictionary overwrite leaves no node with its name anywhere in the output,
let alone in the roots. -/
theorem C4_orphan_promotion_counterexample :
    (⟨some "A", some "n1", some "Z"⟩ : RawCollection) ∈ dupKeyRecs ∧
    recParentKey ⟨some "A", some "n1", some "Z"⟩ = some "Z" ∧
    (∀ c ∈ dupKeyRecs, recKey c ≠ "Z") ∧
    forestFlat (_build_collection_tree dupKeyRecs) = [("A", "n2")] := by
  refine ⟨by decide, by rfl, by decide, ?_⟩
  rw [show _build_collection_tree dupKeyRecs = [CNode.mk "A" "n2" []] from rfl]
  simp [forestFlat]

/-- C4 amended: with pairwise distinct keys, every record whose parent key
is present and non-empty but matches no key in the input is promoted to the
returned roots sequence — a root node carrying its key and name exists. -/
theorem C4_orphan_promotion_amended (recs : List RawCollection)
    (hk : (recs.map recKey).Nodup) (r : RawCollection) (hr : r ∈ recs)
    (p : String) (hpk : recParentKey r = some p)
    (hnm : ∀ c ∈ recs, recKey c ≠ p) :
    ∃ t ∈ _build_collection_tree recs, t.key = recKey r ∧ t.name = recName r := by
  have hentries : entriesOf recs = recs.map mkNodeEntry := entriesOf_eq_of_nodup recs hk
  have hmem : mkNodeEntry r ∈ entriesOf recs := by
    rw [hentries]
    exact List.mem_map_of_mem _ hr
  have hres : resolves (entriesOf recs) (mkNodeEntry r) = false := by
    unfold resolves
    rw [show (mkNodeEntry r).parentKey = some p from hpk]
    have hany : (entriesOf recs).any (fun x => x.key == p) = false := by
      rw [List.any_eq_false]
      intro x hx
      rw [hentries] at hx
      rcases List.mem_map.mp hx with ⟨c, hc, rfl⟩
      simp only [beq_iff_eq]
      exact hnm c hc
    show (p != "" && (entriesOf recs).any fun x => x.key == p) = false
    rw [hany]
    simp
  have hroot : mkNodeEntry r ∈ rootsPre (entriesOf recs) := mem_rootsPre.mpr ⟨hmem, hres⟩
  have hsorted : mkNodeEntry r ∈ sortEntries (rootsPre (entriesOf recs)) :=
    ((sortEntries_perm _).mem_iff).mpr hroot
  refine ⟨buildNode (entriesOf recs) (entriesOf recs).length (mkNodeEntry r),
    List.mem_map_of_mem _ hsorted, ?_, ?_⟩
  · cases (entriesOf recs).length <;> rfl
  · cases (entriesOf recs).length <;> rfl

/-- C4 witness: an orphan with a distinct key is promoted to the roots. -/
theorem C4_orphan_promotion_amended_witness :
    (orphanRecs.map recKey).Nodup ∧
    ∃ t ∈ _build_collection_tree orphanRecs, t.key = "A" ∧ t.name = "a" := by
  refine ⟨by decide, ?_⟩
  have h := C4_orphan_promotion_amended orphanRecs (by decide)
    ⟨some "A", some "a", some "Missing"⟩ (by decide) "Missing" (by rfl) (by decide)
  simpa using h

/-- C7 counterexample: a record with a present but empty name keeps the
empty name — the node's display name is the empty string, not the literal
placeholder. -/
theorem C7_name_placeholder_counterexample :
    forestFlat (_build_collection_tree emptyNameRecs) = [("K", "")] ∧
    ("K", "Unknown") ∉ forestFlat (_build_collection_tree emptyNameRecs) := by
  rw [show _build_collection_tree emptyNameRecs = [CNode.mk "K" "" []] from rfl]
  constructor
  · simp [forestFlat]
  · simp [forestFlat]

/-- C7 amended: with pairwise distinct keys and acyclic parent references,
a record whose data object lacks a name field yields a node displayed with
the literal placeholder name `Unknown` (its key appears in the forest with
name `Unknown`, and every forest node bearing its key has that name); a
present-but-empty name, by contrast, is kept as the empty string. -/
theorem C7_name_placeholder_amended (recs : List RawCollection)
    (hk : (recs.map recKey).Nodup) (ha : RankedAcyclic (entriesOf recs))
    (r : RawCollection) (hr : r ∈ recs) (hnm : r.name = none) :
    (recKey r, "Unknown") ∈ forestFlat (_build_collection_tree recs) ∧
    ∀ pr ∈ forestFlat (_build_collection_tree recs),
      pr.1 = recKey r → pr.2 = "Unknown" := by
  have hperm := build_forest_flat_perm recs hk ha
  have hun : recName r = "Unknown" := by simp [recName, hnm]
  constructor
  · rw [hperm.mem_iff]
    have hmm : (recKey r, recName r) ∈ recs.map (fun c => (recKey c, recName c)) :=
      List.mem_map_of_mem _ hr
    rw [hun] at hmm
    exact hmm
  · intro pr hpr hpk
    have hpr' : pr ∈ recs.map (fun c => (recKey c, recName c)) := hperm.mem_iff.mp hpr
    rcases List.mem_map.mp hpr' with ⟨c, hc, rfl⟩
    have hcr : c = r := List.inj_on_of_nodup_map hk hc hr hpk
    show recName c = "Unknown"
    rw [hcr]
    exact hun

/-- C7 witness: a record with no name field gets the placeholder. -/
theorem C7_name_placeholder_amended_witness :
    (missingNameRecs.map recKey).Nodup ∧
    ("K", "Unknown") ∈ forestFlat (_build_collection_tree missingNameRecs) := by
  refine ⟨by decide, ?_⟩
  have h := C7_name_placeholder_amended missingNameRecs (by decide)
    ⟨fun _ => 0, by decide, by decide⟩ ⟨some "K", none, none⟩ (by decide) rfl
  simpa using h.1

/-! ## Permutation invariance of the builder -/

theorem resolves_congr {entries entries' : List NodeEntry}
    (hp : entries.Perm entries') (e : NodeEntry) :
    resolves entries e = resolves entries' e := by
  unfold resolves
  cases e.parentKey with
  | none => rfl
  | some p =>
    show (p != "" && entries.any fun x => x.key == p) =
      (p != "" && entries'.any fun x => x.key == p)
    rw [any_eq_of_perm hp]

theorem childEntries_perm {entries entries' : List NodeEntry}
    (hp : entries.Perm entries') (k : String) :
    (childEntries entries k).Perm (childEntries entries' k) := by
  unfold childEntries
  have hfc : entries'.filter (fun e => resolves entries e && e.parentKey == some k) =
      entries'.filter (fun e => resolves entries' e && e.parentKey == some k) :=
    List.filter_congr (fun x _ => by rw [resolves_congr hp])
  rw [← hfc]
  exact List.Perm.filter _ hp

theorem rootsPre_perm {entries entries' : List NodeEntry}
    (hp : entries.Perm entries') :
    (rootsPre entries).Perm (rootsPre entries') := by
  unfold rootsPre
  have hfc : entries'.filter (fun e => !resolves entries e) =
      entries'.filter (fun e => !resolves entries' e) :=
    List.filter_congr (fun x _ => by rw [resolves_congr hp])
  rw [← hfc]
  exact List.Perm.filter _ hp

theorem buildNode_congr {entries entries' : List NodeEntry}
    (hp : entries.Perm entries') (hn : (entries.map lowName).Nodup) :
    ∀ (f : Nat) (e : NodeEntry), buildNode entries f e = buildNode entries' f e := by
  intro f
  induction f with
  | zero => intro e; rfl
  | succ f ih =>
    intro e
    have hsort : sortEntries (childEntries entries e.key) =
        sortEntries (childEntries entries' e.key) :=
      sortEntries_eq_of_perm (childEntries_perm hp e.key)
        (List.Nodup.sublist (List.Sublist.map _ (List.filter_sublist _)) hn)
    have hmap : (sortEntries (childEntries entries e.key)).map (buildNode entries f) =
        (sortEntries (childEntries entries' e.key)).map (buildNode entries' f) := by
      rw [← hsort]
      exact List.map_congr_left (fun c _ => ih c)
    show CNode.mk e.key e.name
        ((sortEntries (childEntries entries e.key)).map (buildNode entries f)) =
      CNode.mk e.key e.name
        ((sortEntries (childEntries entries' e.key)).map (buildNode entries' f))
    rw [hmap]

/-- C2 counterexample: two root records sharing a name, fed in the two
orders, build different forests (the stable sort keeps the input order of
the equal-named siblings, so their keys swap). -/
theorem C2_build_deterministic_counterexample :
    sameNameRecs.Perm sameNameRecsRev ∧
    _build_collection_tree sameNameRecs ≠ _build_collection_tree sameNameRecsRev := by
  constructor
  · exact List.Perm.swap _ _ _
  · intro h
    rw [show _build_collection_tree sameNameRecs =
        [CNode.mk "A" "x" [], CNode.mk "B" "x" []] from rfl,
      show _build_collection_tree sameNameRecsRev =
        [CNode.mk "B" "x" [], CNode.mk "A" "x" []] from rfl] at h
    have hmap := congrArg (fun l => l.map CNode.key) h
    simp only [List.map_cons, List.map_nil, CNode.key] at hmap
    exact absurd hmap (by decide)

/-- C2 amended: two input record sequences that are permutations of each
other, with pairwise distinct keys and pairwise case-insensitively distinct
names, build identical forests — the output does not depend on input
order. -/
theorem C2_build_deterministic_amended (recs recs' : List RawCollection)
    (hp : recs.Perm recs') (hk : (recs.map recKey).Nodup)
    (hn : (recs.map (fun c => lowName (mkNodeEntry c))).Nodup) :
    _build_collection_tree recs = _build_collection_tree recs' := by
  have hk' : (recs'.map recKey).Nodup := ((hp.map recKey).nodup_iff).mp hk
  have hent : entriesOf recs = recs.map mkNodeEntry := entriesOf_eq_of_nodup recs hk
  have hent' : entriesOf recs' = recs'.map mkNodeEntry := entriesOf_eq_of_nodup recs' hk'
  have hep : (entriesOf recs).Perm (entriesOf recs') := by
    rw [hent, hent']
    exact hp.map _
  have hnent : ((entriesOf recs).map lowName).Nodup := by
    rw [hent, List.map_map]
    exact hn
  have hroots : sortEntries (rootsPre (entriesOf recs)) =
      sortEntries (rootsPre (entriesOf recs')) := by
    apply sortEntries_eq_of_perm (rootsPre_perm hep)
    exact List.Nodup.sublist (List.Sublist.map _ (List.filter_sublist _)) hnent
  have hlen : (entriesOf recs).length = (entriesOf recs').length := hep.length_eq
  show (sortEntries (rootsPre (entriesOf recs))).map
      (buildNode (entriesOf recs) (entriesOf recs).length) =
    (sortEntries (rootsPre (entriesOf recs'))).map
      (buildNode (entriesOf recs') (entriesOf recs').length)
  rw [hroots, hlen]
  exact List.map_congr_left (fun e _ => buildNode_congr hep hnent _ e)

/-- C2 witness: the spec's worked example against one of its
permutations. -/
theorem C2_build_deterministic_amended_witness :
    demoRecs.Perm demoRecsPerm ∧
    _build_collection_tree demoRecs = _build_collection_tree demoRecsPerm :=
  ⟨by decide, C2_build_deterministic_amended demoRecs demoRecsPerm (by decide)
    (by decide) (by decide)⟩

section SanityChecks

example : (print_tree demoForest "" 1).2.2 = 6 := by
  simp [print_tree, demoForest] <;> decide
example : ((print_tree demoForest "" 1).1).map TreeLine.idx = [1, 2, 3, 4, 5] := by
  simp [print_tree, demoForest] <;> decide
example : ((print_tree demoForest "" 1).2.1).map CNode.key = ["A", "B", "C", "D", "E"] := by
  simp [print_tree, demoForest] <;> decide
example : (build_flat_list [demoLib]).map SelItem.name = ["My Library", "a", "b", "c", "d", "e"] := by
  simp [build_flat_list, add_collections, demoLib, demoForest] <;> decide
example : (build_flat_list [demoLib]).map SelItem.display =
  ["My Library (root)", "My Library > a", "My Library >   b", "My Library >   c",
   "My Library >     d", "My Library > e"] := by
  simp [build_flat_list, add_collections, demoLib, demoForest] <;> decide
example : ((numbered_display [demoLib] 1).1).map TreeLine.idx = [1, 2, 3, 4, 5, 6] := by
  simp [numbered_display, print_tree, demoLib, demoForest] <;> decide
example : (numbered_select (build_flat_list [demoLib]) [demoLib] (some " 3 ")).2 =
  some ⟨"collection", some 1, "b", some "B", "My Library >   b"⟩ := by
  simp [numbered_select, numbered_display, print_tree, build_flat_list, add_collections,
    demoLib, demoForest] <;> decide
example : (numbered_select (build_flat_list [demoLib]) [demoLib] (some "q")).2 = none := by
  simp [numbered_select, numbered_display, print_tree, build_flat_list, add_collections,
    demoLib, demoForest] <;> decide
example : (numbered_select (build_flat_list [demoLib]) [demoLib] (some "0")).2 = none := by
  simp [numbered_select, numbered_display, print_tree, build_flat_list, add_collections,
    demoLib, demoForest] <;> decide
example : (numbered_select (build_flat_list [demoLib]) [demoLib] (some "7")).2 = none := by
  simp [numbered_select, numbered_display, print_tree, build_flat_list, add_collections,
    demoLib, demoForest] <;> decide
example : fuzzy_select (build_flat_list [demoLib]) (.ran 0 "-2:z\n") =
  some ⟨"collection", some 1, "d", some "D", "My Library >     d"⟩ := by
  simp [build_flat_list, add_collections, demoLib, demoForest] <;> decide
example : fuzzy_select (build_flat_list [demoLib]) (.ran 0 "9:z") = none := by
  simp [build_flat_list, add_collections, demoLib, demoForest] <;> decide
example : fuzzy_select (build_flat_list [demoLib]) (.ran 1 "2:z") = none := by
  simp [build_flat_list, add_collections, demoLib, demoForest] <;> decide

end SanityChecks

end ZoteroUpload
